import Mathlib

/-!
Shallow embedding of `riff/utils.py` (the core of the `riff` tool) and proofs
about it.

The embedded functions are:

* `split_paths_by_max_len` — the path batcher (`utils.py`, lines 14–45);
* `validate_paths_relative_to_repo` — per-path repository containment check
  (`utils.py`, lines 48–57);
* `parse_ruff_output` — the violation parser (`utils.py`, lines 60–66);
* `parse_git_changed_lines` / `parse_modified_lines` — the diff indexer
  (`utils.py`, lines 69–102).

Python strings are modelled as `String`, Python sets of line numbers as
`Finset Nat`, raised exceptions as `Except`.
-/

namespace Riff

/-! ### PathBatcher: `split_paths_by_max_len` -/

/-- The `ValueError` raised by `split_paths_by_max_len`:
`ValueError(f"Path is longer than {max_length_sum}: {path}")`.
It names the configured maximum and the offending path. -/
structure PathTooLongError where
  maxLengthSum : Nat
  path : String
deriving DecidableEq, Repr

/-- Total string length of a batch: the running `current_length_sum` of the
Python loop equals this value of `current_list`. -/
def sumLen (b : List String) : Nat := (b.map String.length).sum

/-- The body of the `for path in ...` loop of `split_paths_by_max_len`
(`utils.py`, lines 32–44), with the loop state made explicit:
`acc` is `result`, `cur` is `current_list`, `curSum` is `current_length_sum`.
The trailing `if current_list: result.append(current_list)` is the `[]` case. -/
def splitLoop (m : Nat) (acc : List (List String)) (cur : List String) (curSum : Nat) :
    List String → Except PathTooLongError (List (List String))
  | [] => .ok (if cur.isEmpty then acc else acc ++ [cur])
  | p :: rest =>
    if p.length ≥ m then .error ⟨m, p⟩
    else if curSum + p.length ≤ m then splitLoop m acc (cur ++ [p]) (curSum + p.length) rest
    else splitLoop m (acc ++ [cur]) [p] p.length rest

/-- `sorted(·, key=lambda x: len(str(x)))`: a stable sort by string length
(Python `sorted` is stable; `List.insertionSort` with `≤` on lengths is too). -/
def sortByLen (l : List String) : List String :=
  l.insertionSort (fun a b => a.length ≤ b.length)

/-- `split_paths_by_max_len(paths, max_length_sum)` (`utils.py`, lines 14–45;
the Python default for `max_length_sum` is 4000).

The Python code iterates over `sorted(set(paths), key=lambda x: len(str(x)))`.
The iteration order of the Python `set` over the deduplicated paths is not
determined by the input list (it depends on hashes), so the embedding takes
that order as the argument `setOrder`: a duplicate-free enumeration of the
input paths. The stable length sort and the loop are then deterministic. -/
def split_paths_by_max_len (setOrder : List String) (max_length_sum : Nat) :
    Except PathTooLongError (List (List String)) :=
  splitLoop max_length_sum [] [] 0 (sortByLen setOrder)

/-! ### `validate_paths_relative_to_repo` -/

/-- A `pathlib.Path`: absolute or relative, with its components. `resolve()`
of the repository path is modelled by taking the repository root as an
already-resolved component list. -/
structure PyPath where
  isAbs : Bool
  parts : List String
deriving DecidableEq, Repr

/-- `path.absolute()`: prefix the current working directory when the path is
relative; `absolute()` does not normalize, so no other change. -/
def PyPath.absolute (cwd : List String) (p : PyPath) : List String :=
  if p.isAbs then p.parts else cwd ++ p.parts

/-- `child.relative_to(parent)` for absolute component lists: succeeds with
the remaining components when `parent` is a component prefix of `child`, and
raises `ValueError` otherwise. -/
def relative_to (child parent : List String) : Except String (List String) :=
  if parent.isPrefixOf child then .ok (child.drop parent.length)
  else .error "is not in the subpath"

/-- The condition under which the loop body of
`validate_paths_relative_to_repo` (`utils.py`, lines 50–57) raises the
`ValueError` that `logger.catch(..., reraise=False)` swallows and logs. -/
def path_not_in_repo (cwd : List String) (p : PyPath) (repo_path : List String) : Bool :=
  match relative_to (p.absolute cwd) repo_path with
  | .ok _ => false
  | .error _ => true

/-- `validate_paths_relative_to_repo(paths, repo_path)` (`utils.py`, lines
48–57). The Python function returns `None`; its observable behaviour is the
sequence of per-path ERROR log records, and that it never raises
(`reraise=False`). Warnings-as-data: the embedding returns the list of
logged paths, in input order. -/
def validate_paths_relative_to_repo (cwd : List String) (paths : List PyPath)
    (repo_path : List String) : List PyPath :=
  paths.filter (fun path => path_not_in_repo cwd path repo_path)

/-! ### ViolationParser: `parse_ruff_output` -/

/-- One decoded JSON record of ruff output, with the fields the fixed field
contract reads; a field can be missing. -/
structure RawRecord where
  filename : Option String
  row : Option Nat
  code : Option String
  message : Option String
deriving DecidableEq, Repr

/-- A parsed linter finding. -/
structure Violation where
  path : String
  row : Nat
  code : String
  message : String
deriving DecidableEq, Repr

/-- Modelled from the spec: `Violation.parse` lives in `riff/violation.py`,
which is not under `src/`; the spec fixes its contract: map a record to a
`Violation` by extracting file path, 1-based line number, rule code and
message via a fixed field contract, copying the values verbatim; a record
missing a required field fails. -/
def Violation.parse (r : RawRecord) : Except String Violation :=
  match r.filename, r.row, r.code, r.message with
  | some f, some n, some c, some m => .ok ⟨f, n, c, m⟩
  | _, _, _, _ => .error "missing required field"

/-- The outcome of `json.loads(ruff_result_raw)` (Python standard library,
external to the repository): either a `JSONDecodeError` carrying its message,
or a decoded list of records. -/
inductive RuffRaw where
  | invalid (err : String)
  | records (rs : List RawRecord)
deriving DecidableEq, Repr

/-- The failure of `parse_ruff_output`: either the re-raised underlying
`json.JSONDecodeError` (`logger.catch(json.JSONDecodeError, reraise=True)`),
or the failure of `Violation.parse` on some record. -/
inductive ViolationParseError where
  | jsonError (err : String)
  | recordError (err : String)
deriving DecidableEq, Repr

/-- Applying a fallible function to every element of a list, in order, the
first failure aborting the whole traversal: the behaviour of Python
`tuple(map(f, xs))` when `f` can raise. -/
def mapExcept (f : α → Except ε β) : List α → Except ε (List β)
  | [] => .ok []
  | a :: t =>
    match f a with
    | .error e => .error e
    | .ok b =>
      match mapExcept f t with
      | .error e => .error e
      | .ok bs => .ok (b :: bs)

/-- `parse_ruff_output(ruff_result_raw)` (`utils.py`, lines 60–66):
`json.loads` failures propagate (`reraise=True`); otherwise
`tuple(map(Violation.parse, raw_violations))` forces every record to parse,
so one failing record fails the whole call with no partial tuple. -/
def parse_ruff_output : RuffRaw → Except ViolationParseError (List Violation)
  | .invalid e => .error (.jsonError e)
  | .records rs =>
    match mapExcept Violation.parse rs with
    | .ok vs => .ok vs
    | .error e => .error (.recordError e)

/-! ### DiffIndexer: `parse_git_changed_lines` -/

/-- One line of a unidiff hunk. `line_type` is the unidiff prefix character:
`'+'` added, `'-'` removed, `' '` context. `target_line_no` is the 1-based
line number in the new (target) file; unidiff reports `None` for removed
lines, modelled as `0` here since the indexer never reads it for lines that
are not additions. -/
structure Line where
  line_type : Char
  value : String
  target_line_no : Nat
deriving DecidableEq, Repr

/-- `line.is_added`: the line type is `'+'`. -/
def Line.is_added (l : Line) : Bool := l.line_type = '+'

/-- Python `str.strip()`: remove leading and trailing whitespace. -/
def strip (s : String) : String :=
  ⟨((s.data.dropWhile Char.isWhitespace).reverse.dropWhile Char.isWhitespace).reverse⟩

/-- A hunk of a unidiff patched file: iterating a hunk yields its lines. -/
structure Hunk where
  lines : List Line
deriving DecidableEq, Repr

/-- One per-file patch of a `PatchSet`: its path and its hunks. -/
structure PatchedFile where
  path : String
  hunks : List Hunk
deriving DecidableEq, Repr

/-- `parse_modified_lines(patched_file)` (`utils.py`, lines 76–82): the set
comprehension
`{line.target_line_no for hunk in patched_file for line in hunk
  if line.is_added and line.value.strip()}`. -/
def parse_modified_lines (pf : PatchedFile) : Finset Nat :=
  (((pf.hunks.flatMap Hunk.lines).filter
      (fun line => line.is_added && !(strip line.value == ""))).map
    Line.target_line_no).toFinset

/-- `parse_git_changed_lines` (`utils.py`, lines 84–94): obtaining the diff
text from git and parsing it with `unidiff.PatchSet` are external, so the
embedding starts from the resulting list of patched files. The Python dict
comprehension
`{Path(patched_file.path): parse_modified_lines(patched_file) for ...}`
is represented by its lookup function: for duplicate paths the last entry
wins (dict overwrite), hence `find?` on the reversed list; a key is present
iff some patched file has that path. `Path(...)` is modelled as the raw
path string. -/
def parse_git_changed_lines (ps : List PatchedFile) (k : String) : Option (Finset Nat) :=
  (ps.reverse.find? (fun pf => pf.path == k)).map parse_modified_lines

/-- A patched file whose single hunk holds one deletion only: zero
qualifying added lines. -/
def deletionOnlyFile : PatchedFile := ⟨"a.py", [⟨[⟨'-', "x = 1", 0⟩]⟩]⟩

/-- A patched file whose single hunk holds one non-blank addition at target
line 10. -/
def additionFile : PatchedFile := ⟨"b.py", [⟨[⟨'+', "x = 1", 10⟩]⟩]⟩

/-! ## Lemmas about the batcher loop -/

theorem sumLen_nil : sumLen [] = 0 := rfl

theorem sumLen_append (a b : List String) : sumLen (a ++ b) = sumLen a + sumLen b := by
  simp [sumLen]

theorem sumLen_singleton (p : String) : sumLen [p] = p.length := by
  simp [sumLen]

/-- When every remaining path is strictly shorter than the maximum, the loop
returns normally and the concatenation of the produced batches is exactly the
already-produced output followed by the current batch and the remaining
paths. -/
theorem splitLoop_ok_flatten (m : Nat) (l : List String) :
    ∀ (acc : List (List String)) (cur : List String) (curSum : Nat),
      (∀ p ∈ l, p.length < m) →
      ∃ bs, splitLoop m acc cur curSum l = .ok bs ∧
        bs.flatten = acc.flatten ++ cur ++ l := by
  induction l with
  | nil =>
    intro acc cur curSum _
    refine ⟨_, rfl, ?_⟩
    by_cases hc : cur.isEmpty
    · rw [List.isEmpty_iff] at hc
      simp [hc]
    · simp [hc]
  | cons p rest ih =>
    intro acc cur curSum h
    have hp : p.length < m := h p (by simp)
    rw [splitLoop, if_neg (by omega)]
    by_cases hle : curSum + p.length ≤ m
    · rw [if_pos hle]
      obtain ⟨bs, hbs, hf⟩ :=
        ih acc (cur ++ [p]) (curSum + p.length) (fun q hq => h q (by simp [hq]))
      exact ⟨bs, hbs, by simp [hf]⟩
    · rw [if_neg hle]
      obtain ⟨bs, hbs, hf⟩ :=
        ih (acc ++ [cur]) [p] p.length (fun q hq => h q (by simp [hq]))
      exact ⟨bs, hbs, by simp [hf]⟩

/-- Loop invariant for the length bound: if the running sum matches the
current batch, stays within the maximum, and every closed batch is within the
maximum, then every batch of a normal return is within the maximum. -/
theorem splitLoop_ok_sums (m : Nat) (l : List String) :
    ∀ (acc : List (List String)) (cur : List String) (curSum : Nat),
      curSum = sumLen cur → curSum ≤ m → (∀ b ∈ acc, sumLen b ≤ m) →
      ∀ bs, splitLoop m acc cur curSum l = .ok bs → ∀ b ∈ bs, sumLen b ≤ m := by
  induction l with
  | nil =>
    intro acc cur curSum hsum hle hacc bs hbs b hb
    rw [splitLoop] at hbs
    by_cases hc : cur.isEmpty
    · rw [if_pos hc] at hbs
      cases hbs
      exact hacc b hb
    · rw [if_neg hc] at hbs
      cases hbs
      rcases List.mem_append.mp hb with hb | hb
      · exact hacc b hb
      · rw [List.mem_singleton.mp hb]
        omega
  | cons p rest ih =>
    intro acc cur curSum hsum hle hacc bs hbs b hb
    rw [splitLoop] at hbs
    by_cases hp : p.length ≥ m
    · rw [if_pos hp] at hbs
      cases hbs
    rw [if_neg hp] at hbs
    by_cases hle' : curSum + p.length ≤ m
    · rw [if_pos hle'] at hbs
      exact ih acc (cur ++ [p]) (curSum + p.length)
        (by rw [sumLen_append, sumLen_singleton, hsum]) hle' hacc bs hbs b hb
    · rw [if_neg hle'] at hbs
      refine ih (acc ++ [cur]) [p] p.length (sumLen_singleton p).symm (by omega) ?_ bs hbs b hb
      intro c hc
      rcases List.mem_append.mp hc with hc | hc
      · exact hacc c hc
      · rw [List.mem_singleton.mp hc]
        omega

/-- Loop invariant for batch non-emptiness: every closed batch of a normal
return is non-empty. -/
theorem splitLoop_ok_nonempty (m : Nat) (l : List String) :
    ∀ (acc : List (List String)) (cur : List String) (curSum : Nat),
      curSum = sumLen cur → (∀ b ∈ acc, b ≠ []) →
      ∀ bs, splitLoop m acc cur curSum l = .ok bs → ∀ b ∈ bs, b ≠ [] := by
  induction l with
  | nil =>
    intro acc cur curSum hsum hacc bs hbs b hb
    rw [splitLoop] at hbs
    by_cases hc : cur.isEmpty
    · rw [if_pos hc] at hbs
      cases hbs
      exact hacc b hb
    · rw [if_neg hc] at hbs
      cases hbs
      rcases List.mem_append.mp hb with hb | hb
      · exact hacc b hb
      · rw [List.mem_singleton.mp hb]
        exact fun hnil => hc (by rw [hnil]; rfl)
  | cons p rest ih =>
    intro acc cur curSum hsum hacc bs hbs b hb
    rw [splitLoop] at hbs
    by_cases hp : p.length ≥ m
    · rw [if_pos hp] at hbs
      cases hbs
    rw [if_neg hp] at hbs
    by_cases hle' : curSum + p.length ≤ m
    · rw [if_pos hle'] at hbs
      exact ih acc (cur ++ [p]) (curSum + p.length)
        (by rw [sumLen_append, sumLen_singleton, hsum]) hacc bs hbs b hb
    · rw [if_neg hle'] at hbs
      refine ih (acc ++ [cur]) [p] p.length (sumLen_singleton p).symm ?_ bs hbs b hb
      intro c hc
      rcases List.mem_append.mp hc with hc | hc
      · exact hacc c hc
      · rw [List.mem_singleton.mp hc]
        intro hnil
        rw [hnil, sumLen_nil] at hsum
        omega

/-- If some remaining path has length at least the maximum, the loop raises
the error, and the error names a remaining path of such length and the
configured maximum. -/
theorem splitLoop_error_of_long (m : Nat) (l : List String) :
    ∀ (acc : List (List String)) (cur : List String) (curSum : Nat),
      (∃ p ∈ l, m ≤ p.length) →
      ∃ e, splitLoop m acc cur curSum l = .error e ∧
        e.maxLengthSum = m ∧ e.path ∈ l ∧ m ≤ e.path.length := by
  induction l with
  | nil =>
    intro _ _ _ h
    obtain ⟨p, hp, -⟩ := h
    exact absurd hp (List.not_mem_nil p)
  | cons p rest ih =>
    intro acc cur curSum h
    by_cases hp : p.length ≥ m
    · exact ⟨⟨m, p⟩, by rw [splitLoop, if_pos hp], rfl, by simp, hp⟩
    have hrest : ∃ q ∈ rest, m ≤ q.length := by
      obtain ⟨q, hq, hql⟩ := h
      rcases List.mem_cons.mp hq with rfl | hq
      · omega
      · exact ⟨q, hq, hql⟩
    rw [splitLoop, if_neg hp]
    by_cases hle' : curSum + p.length ≤ m
    · rw [if_pos hle']
      obtain ⟨e, he, h₁, h₂, h₃⟩ := ih acc (cur ++ [p]) (curSum + p.length) hrest
      exact ⟨e, he, h₁, List.mem_cons_of_mem p h₂, h₃⟩
    · rw [if_neg hle']
      obtain ⟨e, he, h₁, h₂, h₃⟩ := ih (acc ++ [cur]) [p] p.length hrest
      exact ⟨e, he, h₁, List.mem_cons_of_mem p h₂, h₃⟩

theorem mem_sortByLen_iff (l : List String) (x : String) :
    x ∈ sortByLen l ↔ x ∈ l :=
  (List.perm_insertionSort _ l).mem_iff

instance : IsTotal String (fun a b : String => a.length ≤ b.length) :=
  ⟨fun a b => Nat.le_total a.length b.length⟩

instance : IsTrans String (fun a b : String => a.length ≤ b.length) :=
  ⟨fun _ _ _ h₁ h₂ => Nat.le_trans h₁ h₂⟩

/-- Two length-sorted permutations of each other are equal as soon as the
elements have pairwise distinct lengths (length-antisymmetry restricted to
the elements at hand). -/
theorem eq_of_perm_sorted_len :
    ∀ (l₁ l₂ : List String), l₁.Perm l₂ →
      l₁.Sorted (fun a b => a.length ≤ b.length) →
      l₂.Sorted (fun a b => a.length ≤ b.length) →
      (∀ p ∈ l₁, ∀ q ∈ l₁, p.length = q.length → p = q) →
      l₁ = l₂
  | [], _, hp, _, _, _ => (List.perm_nil.mp hp.symm).symm
  | a :: t, l₂, hp, hs₁, hs₂, hinj => by
    cases l₂ with
    | nil => exact absurd (List.perm_nil.mp hp) (by simp)
    | cons b t₂ =>
      obtain ⟨ha₁, hs₁'⟩ := List.sorted_cons.mp hs₁
      obtain ⟨hb₂, hs₂'⟩ := List.sorted_cons.mp hs₂
      have hbmem : b ∈ a :: t := hp.mem_iff.mpr (List.mem_cons_self b t₂)
      have hamem : a ∈ b :: t₂ := hp.mem_iff.mp (List.mem_cons_self a t)
      have h₁ : a.length ≤ b.length := by
        rcases List.mem_cons.mp hbmem with h | h
        · rw [h]
        · exact ha₁ b h
      have h₂ : b.length ≤ a.length := by
        rcases List.mem_cons.mp hamem with h | h
        · rw [h]
        · exact hb₂ a h
      have hab : a = b :=
        hinj a (List.mem_cons_self a t) b hbmem (Nat.le_antisymm h₁ h₂)
      subst hab
      have ht : t = t₂ :=
        eq_of_perm_sorted_len t t₂ hp.cons_inv hs₁' hs₂'
          (fun p hp' q hq' =>
            hinj p (List.mem_cons_of_mem a hp') q (List.mem_cons_of_mem a hq'))
      rw [ht]

/-- Two duplicate-free enumerations of the same path set sort to the same
length-sorted sequence whenever no two distinct paths share a length. -/
theorem sortByLen_eq_of_same_members (o₁ o₂ : List String)
    (hnd₁ : o₁.Nodup) (hnd₂ : o₂.Nodup) (hm : ∀ x, x ∈ o₁ ↔ x ∈ o₂)
    (hinj : ∀ p ∈ o₁, ∀ q ∈ o₁, p.length = q.length → p = q) :
    sortByLen o₁ = sortByLen o₂ := by
  have hperm : o₁.Perm o₂ := (List.perm_ext_iff_of_nodup hnd₁ hnd₂).mpr hm
  have hp : (sortByLen o₁).Perm (sortByLen o₂) :=
    (List.perm_insertionSort _ o₁).trans
      (hperm.trans (List.perm_insertionSort _ o₂).symm)
  exact eq_of_perm_sorted_len _ _ hp
    (List.sorted_insertionSort _ o₁) (List.sorted_insertionSort _ o₂)
    (fun p hp' q hq' =>
      hinj p ((mem_sortByLen_iff _ _).mp hp') q ((mem_sortByLen_iff _ _).mp hq'))

/-! ## Claims about the batcher -/

/-- C3: for every input path list and maximum, if some path's string length
is at least `max_length_sum` then `split_paths_by_max_len` raises the
path-too-long `ValueError`, naming an offending path and the maximum,
regardless of what other paths are in the input and of the set iteration
order; no batch list is produced. -/
theorem split_paths_by_max_len_error_on_long_path
    (paths setOrder : List String) (max_length_sum : Nat)
    (horder : ∀ x, x ∈ setOrder ↔ x ∈ paths)
    (h : ∃ p ∈ paths, max_length_sum ≤ p.length) :
    ∃ e, split_paths_by_max_len setOrder max_length_sum = .error e ∧
      e.maxLengthSum = max_length_sum ∧ e.path ∈ paths ∧
      max_length_sum ≤ e.path.length := by
  obtain ⟨p, hp, hpl⟩ := h
  obtain ⟨e, he, h₁, h₂, h₃⟩ :=
    splitLoop_error_of_long max_length_sum (sortByLen setOrder) [] [] 0
      ⟨p, (mem_sortByLen_iff _ _).mpr ((horder p).mpr hp), hpl⟩
  exact ⟨e, he, h₁, (horder _).mp ((mem_sortByLen_iff _ _).mp h₂), h₃⟩

theorem split_paths_by_max_len_error_on_long_path_witness :
    ∃ e, split_paths_by_max_len ["aaaa"] 3 = .error e ∧
      e.maxLengthSum = 3 ∧ e.path ∈ ["aaaa"] ∧ 3 ≤ e.path.length :=
  split_paths_by_max_len_error_on_long_path ["aaaa"] ["aaaa"] 3
    (fun _ => Iff.rfl) ⟨"aaaa", by simp, by decide⟩

/-- C4 counterexample: the claim as stated is false. The two-element path
set containing `"a"` and `"b"` (equal lengths) admits the set iteration
orders `["a", "b"]` and `["b", "a"]`; the two calls return different batch
structures, and neither tie is broken by comparing the path strings — the
batch keeps the set iteration order. -/
theorem split_paths_by_max_len_order_dependent :
    (["a", "b"] : List String).Nodup ∧ (["b", "a"] : List String).Nodup ∧
    (["a", "b"] : List String).Perm ["b", "a"] ∧
    split_paths_by_max_len ["a", "b"] 10 = .ok [["a", "b"]] ∧
    split_paths_by_max_len ["b", "a"] 10 = .ok [["b", "a"]] ∧
    ([["a", "b"]] : List (List String)) ≠ [["b", "a"]] :=
  ⟨by decide, by decide, by decide, rfl, rfl, by decide⟩

/-- C4 amended: `split_paths_by_max_len` is deterministic given the set
iteration order (it is a pure function of it), and its output does not
depend on that order whenever no two distinct paths of the input share a
string length; with equal-length paths the output can depend on the
iteration order (see the counterexample), ties being kept in set order, not
broken by comparing path strings. -/
theorem split_paths_by_max_len_deterministic_distinct_lengths
    (paths o₁ o₂ : List String) (max_length_sum : Nat)
    (hnd₁ : o₁.Nodup) (hnd₂ : o₂.Nodup)
    (hm₁ : ∀ x, x ∈ o₁ ↔ x ∈ paths) (hm₂ : ∀ x, x ∈ o₂ ↔ x ∈ paths)
    (hinj : ∀ p ∈ paths, ∀ q ∈ paths, p.length = q.length → p = q) :
    split_paths_by_max_len o₁ max_length_sum =
      split_paths_by_max_len o₂ max_length_sum := by
  have hsort : sortByLen o₁ = sortByLen o₂ :=
    sortByLen_eq_of_same_members o₁ o₂ hnd₁ hnd₂
      (fun x => (hm₁ x).trans (hm₂ x).symm)
      (fun p hp q hq h => hinj p ((hm₁ p).mp hp) q ((hm₁ q).mp hq) h)
  rw [split_paths_by_max_len, split_paths_by_max_len, hsort]

theorem split_paths_by_max_len_deterministic_distinct_lengths_witness :
    split_paths_by_max_len ["a", "bb"] 10 = split_paths_by_max_len ["bb", "a"] 10 :=
  split_paths_by_max_len_deterministic_distinct_lengths ["a", "bb"] ["a", "bb"] ["bb", "a"] 10
    (by decide) (by decide) (fun _ => Iff.rfl)
    (fun x => by
      simp only [List.mem_cons, List.not_mem_nil, or_false]
      exact or_comm)
    (by decide)

/-- C5: when no single path reaches `max_length_sum`, the call returns
normally and every returned batch has total path-string length at most
`max_length_sum`. -/
theorem split_paths_by_max_len_batch_sums_le
    (paths setOrder : List String) (max_length_sum : Nat)
    (horder : ∀ x, x ∈ setOrder ↔ x ∈ paths)
    (hshort : ∀ p ∈ paths, p.length < max_length_sum) :
    ∃ bs, split_paths_by_max_len setOrder max_length_sum = .ok bs ∧
      ∀ b ∈ bs, sumLen b ≤ max_length_sum := by
  have hshort' : ∀ p ∈ sortByLen setOrder, p.length < max_length_sum :=
    fun p hp => hshort p ((horder p).mp ((mem_sortByLen_iff _ _).mp hp))
  obtain ⟨bs, hbs, -⟩ := splitLoop_ok_flatten _ _ [] [] 0 hshort'
  exact ⟨bs, hbs,
    splitLoop_ok_sums _ _ [] [] 0 rfl (Nat.zero_le _) (by simp) bs hbs⟩

theorem split_paths_by_max_len_batch_sums_le_witness :
    ∃ bs, split_paths_by_max_len ["a.py", "bb.py"] 6 = .ok bs ∧
      ∀ b ∈ bs, sumLen b ≤ 6 :=
  split_paths_by_max_len_batch_sums_le ["a.py", "bb.py"] ["a.py", "bb.py"] 6
    (fun _ => Iff.rfl) (by decide)

/-- C6: when no single path reaches `max_length_sum`, the returned batches,
flattened, are a permutation of the deduplicated input: each distinct input
path appears exactly once across all batches and nothing else appears. -/
theorem split_paths_by_max_len_flatten_perm
    (paths setOrder : List String) (max_length_sum : Nat)
    (hnd : setOrder.Nodup)
    (horder : ∀ x, x ∈ setOrder ↔ x ∈ paths)
    (hshort : ∀ p ∈ paths, p.length < max_length_sum) :
    ∃ bs, split_paths_by_max_len setOrder max_length_sum = .ok bs ∧
      bs.flatten.Perm setOrder ∧ bs.flatten.Nodup ∧
      ∀ x, x ∈ bs.flatten ↔ x ∈ paths := by
  have hshort' : ∀ p ∈ sortByLen setOrder, p.length < max_length_sum :=
    fun p hp => hshort p ((horder p).mp ((mem_sortByLen_iff _ _).mp hp))
  obtain ⟨bs, hbs, hf⟩ := splitLoop_ok_flatten _ _ [] [] 0 hshort'
  have hflat : bs.flatten = sortByLen setOrder := by simpa using hf
  have hperm : bs.flatten.Perm setOrder := by
    rw [hflat]
    exact List.perm_insertionSort _ setOrder
  exact ⟨bs, hbs, hperm, hperm.nodup_iff.mpr hnd,
    fun x => hperm.mem_iff.trans (horder x)⟩

theorem split_paths_by_max_len_flatten_perm_witness :
    ∃ bs, split_paths_by_max_len ["a.py", "bb.py"] 6 = .ok bs ∧
      bs.flatten.Perm ["a.py", "bb.py"] ∧ bs.flatten.Nodup ∧
      ∀ x, x ∈ bs.flatten ↔ x ∈ ["a.py", "bb.py"] :=
  split_paths_by_max_len_flatten_perm ["a.py", "bb.py"] ["a.py", "bb.py"] 6
    (by decide) (fun _ => Iff.rfl) (by decide)

/-- C10: whenever `split_paths_by_max_len` returns, every returned batch is
non-empty; an empty input yields an empty list of batches, never a list
containing an empty batch. -/
theorem split_paths_by_max_len_batches_nonempty
    (setOrder : List String) (max_length_sum : Nat) (bs : List (List String))
    (h : split_paths_by_max_len setOrder max_length_sum = .ok bs) :
    (∀ b ∈ bs, b ≠ []) ∧ (setOrder = [] → bs = []) := by
  constructor
  · exact splitLoop_ok_nonempty _ _ [] [] 0 rfl (by simp) bs h
  · rintro rfl
    rw [split_paths_by_max_len] at h
    simp [sortByLen, List.insertionSort, splitLoop] at h
    exact h

theorem split_paths_by_max_len_batches_nonempty_witness :
    (∀ b ∈ [["a", "b"]], b ≠ ([] : List String)) ∧
      ((["a", "b"] : List String) = [] → [["a", "b"]] = ([] : List (List String))) :=
  split_paths_by_max_len_batches_nonempty ["a", "b"] 10 [["a", "b"]] rfl

/-! ## Lemmas about the violation parser -/

/-- If some element of the list fails, the whole traversal fails. -/
theorem mapExcept_error_of_mem {α ε β : Type} (f : α → Except ε β) (l : List α)
    (a : α) (ha : a ∈ l) (e : ε) (he : f a = .error e) :
    ∃ e', mapExcept f l = .error e' := by
  induction l with
  | nil => cases ha
  | cons b t ih =>
    rcases List.mem_cons.mp ha with rfl | hmem
    · exact ⟨e, by rw [mapExcept, he]⟩
    · cases hb : f b with
      | error eb => exact ⟨eb, by rw [mapExcept, hb]⟩
      | ok vb =>
        obtain ⟨e', he'⟩ := ih hmem
        exact ⟨e', by rw [mapExcept, hb, he']⟩

/-- If every element succeeds, the traversal succeeds, with one output per
input in the same order. -/
theorem mapExcept_ok_of_all {α ε β : Type} (f : α → Except ε β) (l : List α)
    (h : ∀ a ∈ l, ∃ b, f a = .ok b) :
    ∃ bs, mapExcept f l = .ok bs ∧ bs.length = l.length ∧
      ∀ i (hi : i < l.length) (hi' : i < bs.length),
        f (l.get ⟨i, hi⟩) = .ok (bs.get ⟨i, hi'⟩) := by
  induction l with
  | nil => exact ⟨[], rfl, rfl, fun i hi => absurd hi (by simp)⟩
  | cons a t ih =>
    obtain ⟨b, hb⟩ := h a (List.mem_cons_self a t)
    obtain ⟨bs, hbs, hlen, hidx⟩ := ih (fun x hx => h x (List.mem_cons_of_mem a hx))
    refine ⟨b :: bs, by rw [mapExcept, hb, hbs], by simp [hlen], ?_⟩
    intro i hi hi'
    cases i with
    | zero => simpa using hb
    | succ j =>
      exact hidx j (by simpa using hi) (by simpa using hi')

/-! ## Claims about the violation parser -/

/-- C7: `parse_ruff_output` fails with the error wrapping the underlying
JSON decode failure whenever the raw payload is not valid structured data;
and when any record is missing a required field, the entire parse fails —
no partial sequence of `Violation`s is returned. -/
theorem parse_ruff_output_fails_fast (err : String) (rs : List RawRecord)
    (r : RawRecord) (hr : r ∈ rs) (e : String)
    (he : Violation.parse r = .error e) :
    parse_ruff_output (.invalid err) = .error (.jsonError err) ∧
      ∃ e', parse_ruff_output (.records rs) = .error (.recordError e') := by
  refine ⟨rfl, ?_⟩
  obtain ⟨e', he'⟩ := mapExcept_error_of_mem Violation.parse rs r hr e he
  exact ⟨e', by rw [parse_ruff_output, he']⟩

theorem parse_ruff_output_fails_fast_witness :
    parse_ruff_output (.invalid "Expecting value") = .error (.jsonError "Expecting value") ∧
      ∃ e', parse_ruff_output
          (.records [⟨none, some 1, some "E501", some "line too long"⟩]) =
        .error (.recordError e') :=
  parse_ruff_output_fails_fast "Expecting value"
    [⟨none, some 1, some "E501", some "line too long"⟩]
    ⟨none, some 1, some "E501", some "line too long"⟩
    (List.mem_singleton.mpr rfl) "missing required field" rfl

/-- C8: for a payload in which every record has the required fields,
`parse_ruff_output` returns exactly one `Violation` per input record, in
input order, with the field values copied verbatim — no deduplication,
sorting or grouping. -/
theorem parse_ruff_output_verbatim_ordered (rs : List RawRecord)
    (h : ∀ r ∈ rs, ∃ v, Violation.parse r = .ok v) :
    ∃ vs, parse_ruff_output (.records rs) = .ok vs ∧ vs.length = rs.length ∧
      ∀ i (hi : i < rs.length) (hi' : i < vs.length)
        (f : String) (n : Nat) (c msg : String),
        rs.get ⟨i, hi⟩ = ⟨some f, some n, some c, some msg⟩ →
        vs.get ⟨i, hi'⟩ = ⟨f, n, c, msg⟩ := by
  obtain ⟨vs, hvs, hlen, hidx⟩ := mapExcept_ok_of_all Violation.parse rs h
  refine ⟨vs, by rw [parse_ruff_output, hvs], hlen, ?_⟩
  intro i hi hi' f n c msg hrec
  have hpi := hidx i hi hi'
  rw [hrec] at hpi
  rw [Violation.parse] at hpi
  exact (Except.ok.inj hpi).symm

theorem parse_ruff_output_verbatim_ordered_witness :
    ∃ vs, parse_ruff_output
        (.records [⟨some "a.py", some 3, some "E501", some "line too long"⟩]) = .ok vs ∧
      vs.length =
        ([⟨some "a.py", some 3, some "E501", some "line too long"⟩] : List RawRecord).length ∧
      ∀ i (hi : i < [(⟨some "a.py", some 3, some "E501", some "line too long"⟩ : RawRecord)].length)
        (hi' : i < vs.length) (f : String) (n : Nat) (c msg : String),
        [(⟨some "a.py", some 3, some "E501", some "line too long"⟩ : RawRecord)].get ⟨i, hi⟩ =
          ⟨some f, some n, some c, some msg⟩ →
        vs.get ⟨i, hi'⟩ = ⟨f, n, c, msg⟩ :=
  parse_ruff_output_verbatim_ordered [⟨some "a.py", some 3, some "E501", some "line too long"⟩]
    (fun r hr => by
      rw [List.mem_singleton.mp hr]
      exact ⟨⟨"a.py", 3, "E501", "line too long"⟩, rfl⟩)

/-! ## Claim about path validation -/

/-- C9: a supplied path that does not resolve inside the repository root is
logged (`logger.catch` with `reraise=False` swallows the `ValueError`) and
iteration continues with the remaining paths — no exception escapes, the
later paths are still examined — while a path that does resolve inside the
root is never logged. -/
theorem validate_paths_relative_to_repo_skips_and_continues
    (cwd repo_path : List String) (xs ys : List PyPath) (p : PyPath) :
    validate_paths_relative_to_repo cwd (xs ++ p :: ys) repo_path =
      validate_paths_relative_to_repo cwd xs repo_path ++
        (if path_not_in_repo cwd p repo_path then [p] else []) ++
        validate_paths_relative_to_repo cwd ys repo_path ∧
    (∀ q ∈ validate_paths_relative_to_repo cwd (xs ++ p :: ys) repo_path,
      path_not_in_repo cwd q repo_path = true) := by
  constructor
  · rw [validate_paths_relative_to_repo, validate_paths_relative_to_repo,
      validate_paths_relative_to_repo, List.filter_append, List.filter_cons]
    by_cases hp : path_not_in_repo cwd p repo_path
    · simp [hp]
    · simp [hp]
  · intro q hq
    exact (List.mem_filter.mp hq).2

theorem validate_paths_relative_to_repo_skips_and_continues_witness :
    validate_paths_relative_to_repo ["home"] [⟨true, ["repo", "a.py"]⟩, ⟨true, ["etc", "b.py"]⟩,
        ⟨true, ["repo", "c.py"]⟩] ["repo"] =
      validate_paths_relative_to_repo ["home"] [⟨true, ["repo", "a.py"]⟩] ["repo"] ++
        (if path_not_in_repo ["home"] ⟨true, ["etc", "b.py"]⟩ ["repo"] then
          [⟨true, ["etc", "b.py"]⟩] else []) ++
        validate_paths_relative_to_repo ["home"] [⟨true, ["repo", "c.py"]⟩] ["repo"] ∧
    (∀ q ∈ validate_paths_relative_to_repo ["home"] [⟨true, ["repo", "a.py"]⟩,
        ⟨true, ["etc", "b.py"]⟩, ⟨true, ["repo", "c.py"]⟩] ["repo"],
      path_not_in_repo ["home"] q ["repo"] = true) :=
  validate_paths_relative_to_repo_skips_and_continues ["home"] ["repo"]
    [⟨true, ["repo", "a.py"]⟩] [⟨true, ["repo", "c.py"]⟩] ⟨true, ["etc", "b.py"]⟩

/-! ## Lemmas about the diff indexer -/

/-- Membership in the per-file set of `parse_modified_lines`. -/
theorem mem_parse_modified_lines (pf : PatchedFile) (n : Nat) :
    n ∈ parse_modified_lines pf ↔
      ∃ hunk ∈ pf.hunks, ∃ line ∈ hunk.lines,
        line.is_added = true ∧ strip line.value ≠ "" ∧ line.target_line_no = n := by
  rw [parse_modified_lines]
  constructor
  · intro hn
    rw [List.mem_toFinset] at hn
    obtain ⟨line, hline, rfl⟩ := List.mem_map.mp hn
    obtain ⟨hmem, hcond⟩ := List.mem_filter.mp hline
    obtain ⟨hunk, hhunk, hlmem⟩ := List.mem_flatMap.mp hmem
    have h1 : line.is_added = true ∧ ¬(strip line.value = "") := by simpa using hcond
    exact ⟨hunk, hhunk, line, hlmem, h1.1, h1.2, rfl⟩
  · rintro ⟨hunk, hhunk, line, hlmem, hadd, hval, rfl⟩
    rw [List.mem_toFinset]
    exact List.mem_map.mpr ⟨line,
      List.mem_filter.mpr ⟨List.mem_flatMap.mpr ⟨hunk, hhunk, hlmem⟩, by simp [hadd, hval]⟩, rfl⟩

/-! ## Claims about the diff indexer -/

/-- C1 counterexample: a patched file whose only hunk line is a deletion has
zero qualifying added lines, yet `parse_git_changed_lines` keeps it: the
file is present in the mapping as a key, with the empty set as its value —
not absent as the claim states. -/
theorem parse_git_changed_lines_empty_set_present :
    parse_modified_lines deletionOnlyFile = ∅ ∧
      parse_git_changed_lines [deletionOnlyFile] "a.py" = some ∅ := by
  exact ⟨by decide, by decide⟩

/-- C1 amended: every file entry of the diff is present as a key in the
mapping returned by `parse_git_changed_lines`, a file with zero qualifying
added lines included — its value is then the empty set, it is never
dropped. -/
theorem parse_git_changed_lines_key_present (ps : List PatchedFile)
    (pf : PatchedFile) (hpf : pf ∈ ps) :
    ∃ s, parse_git_changed_lines ps pf.path = some s := by
  rw [parse_git_changed_lines]
  have hsome : (ps.reverse.find? (fun q => q.path == pf.path)).isSome :=
    List.find?_isSome.mpr ⟨pf, List.mem_reverse.mpr hpf, by simp⟩
  obtain ⟨q, hq⟩ := Option.isSome_iff_exists.mp hsome
  exact ⟨parse_modified_lines q, by rw [hq]; rfl⟩

theorem parse_git_changed_lines_key_present_witness :
    ∃ s, parse_git_changed_lines [deletionOnlyFile] deletionOnlyFile.path = some s :=
  parse_git_changed_lines_key_present [deletionOnlyFile] deletionOnlyFile
    (List.mem_singleton.mpr rfl)

/-- C2: a line number is in a file's set of the `ChangedLineIndex` produced
by `parse_git_changed_lines` iff some hunk line of that file is classified
as an addition, is non-blank after stripping leading and trailing
whitespace, and carries that target line number; numbers arising only from
deletions, context lines or blank additions never appear. -/
theorem parse_git_changed_lines_mem_iff (ps : List PatchedFile) (k : String)
    (s : Finset Nat) (n : Nat) (h : parse_git_changed_lines ps k = some s) :
    ∃ pf, pf ∈ ps ∧ pf.path = k ∧ s = parse_modified_lines pf ∧
      (n ∈ s ↔ ∃ hunk ∈ pf.hunks, ∃ line ∈ hunk.lines,
        line.is_added = true ∧ strip line.value ≠ "" ∧ line.target_line_no = n) := by
  rw [parse_git_changed_lines] at h
  cases hf : ps.reverse.find? (fun q => q.path == k) with
  | none => rw [hf] at h; cases h
  | some pf =>
    rw [hf] at h
    have hmem : pf ∈ ps.reverse := List.mem_of_find?_eq_some hf
    have hpath := List.find?_some hf
    have hs : s = parse_modified_lines pf := (Option.some.inj h).symm
    subst hs
    exact ⟨pf, List.mem_reverse.mp hmem, by simpa using hpath, rfl,
      mem_parse_modified_lines pf n⟩

theorem parse_git_changed_lines_mem_iff_witness :
    ∃ pf, pf ∈ [additionFile] ∧ pf.path = "b.py" ∧
      ({10} : Finset Nat) = parse_modified_lines pf ∧
      (10 ∈ ({10} : Finset Nat) ↔ ∃ hunk ∈ pf.hunks, ∃ line ∈ hunk.lines,
        line.is_added = true ∧ strip line.value ≠ "" ∧ line.target_line_no = 10) :=
  parse_git_changed_lines_mem_iff [additionFile] "b.py" {10} 10 (by decide)

end Riff
